import Mathlib

/-!
Verification of the conversation-orchestrator layer of the vertical-agents
repository (the Claude API wrapper in `lib/claude.ts`, the escalation
predicate, the streaming wrapper, and the onboarding completion routine of
`factory/templates/onboarding-flow.md`).

Strings are modeled as lists of characters (`Str`).  The template
substitution performed by `chat`/`streamChat` — one global
regex-replace per context entry, applied sequentially over the entries of
the client-context object — is embedded as `renderTemplate`.  The model
backend (`anthropic.messages.create` / `.stream`) is an oracle passed as a
function argument; every observable effect of a call (the single network
request) is returned as an explicit trace, so frame properties are
statable.
-/

set_option maxHeartbeats 1000000

namespace VAgents

/-- Characters lists stand for the JavaScript strings of the source. -/
abbrev Str := List Char

/-- The opening brace character (written via its code point). -/
def lbrace : Char := Char.ofNat 123

/-- The closing brace character (written via its code point). -/
def rbrace : Char := Char.ofNat 125

/-- True when a string contains no brace character. -/
def braceFree (s : Str) : Bool := s.all (fun c => c != lbrace && c != rbrace)

/-- True when a string contains no opening brace (enough to rule out any
placeholder match starting inside it). -/
def noOpen (s : Str) : Bool := s.all (fun c => c != lbrace)

/-- The literal text of a template placeholder for key `k`: two opening
braces, the key, two closing braces.  This is the string matched by the
regex `new RegExp("\\\\x7b\\\\x7b" + key + "\\\\x7d\\\\x7d", "g")` that
`chat` builds (braces escaped), for keys that are plain identifiers. -/
def placeholder (k : Str) : Str := lbrace :: lbrace :: (k ++ [rbrace, rbrace])

/-- Fuel-indexed global replacement: scan left to right; at each position,
if the (non-empty) pattern occurs there, emit the replacement and continue
after the matched occurrence (the replacement itself is not rescanned),
otherwise emit one character.  This is the semantics of JavaScript
`String.prototype.replace` with a global literal-text regex and a
replacement containing no dollar escapes.  The fuel argument only makes the
recursion structural; `replaceAll` supplies enough fuel for the whole
scan. -/
def replaceAllF : Nat → Str → Str → Str → Str
  | 0, s, _, _ => s
  | fuel + 1, s, pat, rep =>
    match s with
    | [] => []
    | c :: rest =>
      bif pat.isPrefixOf (c :: rest) && !pat.isEmpty then
        rep ++ replaceAllF fuel ((c :: rest).drop pat.length) pat rep
      else
        c :: replaceAllF fuel rest pat rep

/-- Global replacement of a literal pattern by a literal replacement.
This is an auxiliary notion: the wrapper's replacement step is the
regex-based `regexReplace` below, which provably reduces to this literal
replacement exactly when the key contains no regex syntax and the value no
dollar escapes (`regexReplace_lit`). -/
def replaceAll (s pat rep : Str) : Str := replaceAllF s.length s pat rep

/-- Sequential literal-replacement rendering: one literal global
replacement of `\x7b\x7bkey\x7d\x7d` per context entry, in entry order.
Auxiliary, for the same reason as `replaceAll`: the wrapper's rendering is
`renderTemplate` below, which coincides with this under plain keys and
dollar-free values (`renderTemplate_eq_literal`). -/
def literalRender (template : Str) (ctx : List (Str × Str)) : Str :=
  ctx.foldl (fun acc kv => replaceAll acc (placeholder kv.1) kv.2) template

/-- One atom of the modeled regex fragment: a literal character or the
dot.  The wrapper builds its pattern as
`new RegExp("\\\\x7b\\\\x7b" + key + "\\\\x7d\\\\x7d", "g")`, interpolating
the key UNESCAPED, so the key's characters are interpreted as regex
syntax.  The fragment modeled here covers every pattern the wrapper can
build from the escaped braces plus a key made of plain characters and
dots; keys using further regex syntax (escapes, quantifiers, classes,
anchors, alternation, groups) are outside the modeled fragment. -/
inductive RAtom where
  | lit (c : Char)
  | dot

/-- Characters that are regex metacharacters (or introduce escapes) and
therefore do not denote themselves when a key is spliced into the
pattern. -/
def isMeta (c : Char) : Bool :=
  c == '*' || c == '+' || c == '?' || c == '(' || c == ')' || c == '[' || c == ']' ||
    c == '|' || c == '^' || c == '$' || c == lbrace || c == rbrace || c == '\\'

/-- A character that denotes itself inside the pattern (not a
metacharacter and not the dot). -/
def plainChar (c : Char) : Bool := !isMeta c && c != '.'

/-- A key whose splice into the pattern is a sequence of literal atoms. -/
def plainKey (k : Str) : Bool := k.all plainChar

/-- A replacement value containing no dollar character (so JavaScript's
replacement-string processing leaves it verbatim). -/
def dollarFree (s : Str) : Bool := s.all (fun c => c != '$')

/-- Whether one regex atom matches one character.  The dot matches every
character except the four line terminators. -/
def atomMatches : RAtom → Char → Bool
  | .lit d, c => c == d
  | .dot, c =>
    c != '\n' && c != '\r' && c != Char.ofNat 0x2028 && c != Char.ofNat 0x2029

/-- The literal-atom pattern denoting exactly the string `s`. -/
def litAtoms (s : Str) : List RAtom := s.map RAtom.lit

/-- Match a pattern against a prefix of `s`: on success, the matched text
and the remainder. -/
def atomsSplit : List RAtom → Str → Option (Str × Str)
  | [], s => some ([], s)
  | _ :: _, [] => none
  | a :: pas, c :: cs =>
    if atomMatches a c then
      (atomsSplit pas cs).map (fun mr => (c :: mr.1, mr.2))
    else none

/-- Parse a pattern source string into the modeled regex fragment:
`\x5c` followed by a brace is that literal brace (the escapes the wrapper
itself adds), a dot is the dot atom, any other non-metacharacter denotes
itself; everything else (other escapes, quantifiers, classes, anchors,
alternation, stray braces) is outside the fragment and yields `none`. -/
def regexParse : Str → Option (List RAtom)
  | [] => some []
  | c :: t =>
    if c = '\\' then
      match t with
      | [] => none
      | d :: t' =>
        if d = lbrace || d = rbrace then (regexParse t').map (RAtom.lit d :: ·) else none
    else if c = '.' then (regexParse t).map (RAtom.dot :: ·)
    else if isMeta c then none
    else (regexParse t).map (RAtom.lit c :: ·)

/-- The pattern source string the wrapper builds for a key: escaped brace,
escaped brace, the raw key, escaped brace, escaped brace. -/
def regexSource (k : Str) : Str :=
  '\\' :: lbrace :: '\\' :: lbrace :: (k ++ ['\\', rbrace, '\\', rbrace])

/-- The parsed pattern for a key, when the key lies in the modeled
fragment. -/
def keyRegex (k : Str) : Option (List RAtom) := regexParse (regexSource k)

/-- JavaScript replacement-string processing for a pattern with no capture
groups: `$$` inserts a dollar, `$&` the matched text, a dollar followed by
the backquote (code point 96) the portion of the original string before
the match, a dollar followed by the quote (code point 39) the portion
after it; any other dollar sequence (including `$1`, since the pattern has
no groups) is literal. -/
def expandDollar (matched before after : Str) : Str → Str
  | [] => []
  | c :: t =>
    if c = '$' then
      match t with
      | [] => ['$']
      | d :: t' =>
        if d = '$' then '$' :: expandDollar matched before after t'
        else if d = '&' then matched ++ expandDollar matched before after t'
        else if d = Char.ofNat 96 then before ++ expandDollar matched before after t'
        else if d = Char.ofNat 39 then after ++ expandDollar matched before after t'
        else '$' :: d :: expandDollar matched before after t'
    else c :: expandDollar matched before after t

/-- Fuel-indexed global regex replacement: scan left to right carrying the
consumed prefix (`before`, for the dollar escapes); when the (non-empty)
pattern matches at the current position, emit the processed replacement
and continue after the matched text, which is not rescanned; otherwise
emit one character.  The fuel only makes the recursion structural. -/
def regexReplaceF : Nat → Str → Str → List RAtom → Str → Str
  | 0, _, s, _, _ => s
  | fuel + 1, before, s, pat, rep =>
    match s with
    | [] => []
    | c :: rest =>
      match (bif pat.isEmpty then none else atomsSplit pat (c :: rest)) with
      | some mr =>
        expandDollar mr.1 before mr.2 rep ++ regexReplaceF fuel (before ++ mr.1) mr.2 pat rep
      | none => c :: regexReplaceF fuel (before ++ [c]) rest pat rep

/-- One `systemPrompt.replace(new RegExp(..., "g"), String(value))` step:
global regex replacement with JavaScript replacement-string
processing. -/
def regexReplace (s : Str) (pat : List RAtom) (rep : Str) : Str :=
  regexReplaceF s.length [] s pat rep

/-- Embeds the system-prompt construction of `chat` and `streamChat`:
starting from the template, run one global regex replacement per
client-context entry, sequentially in entry order
(`Object.entries(clientContext).forEach(...)`).  A key outside the
modeled regex fragment leaves the prompt unchanged in the model (such keys
are excluded by the hypotheses of every substitution theorem). -/
def renderTemplate (template : Str) (ctx : List (Str × Str)) : Str :=
  ctx.foldl (fun acc kv =>
    match keyRegex kv.1 with
    | some pat => regexReplace acc pat kv.2
    | none => acc) template

/-- Contexts under which the regex replacement provably behaves as
occurrence-wise literal substitution: every key is plain (so its splice
denotes it literally; plain characters exclude braces, so such keys are
also brace-free) and every value is brace-free and dollar-free. -/
def ctxOK (ctx : List (Str × Str)) : Bool :=
  ctx.all (fun kv => plainKey kv.1 && (braceFree kv.2 && dollarFree kv.2))

/-- First context entry whose placeholder occurs at the head of `s`. -/
def lookupMatch (ctx : List (Str × Str)) (s : Str) : Option (Str × Str) :=
  ctx.find? (fun kv => (placeholder kv.1).isPrefixOf s)

/-- Fuel-indexed single left-to-right simultaneous substitution pass. -/
def specSubstF : Nat → List (Str × Str) → Str → Str
  | 0, _, s => s
  | fuel + 1, ctx, s =>
    match s with
    | [] => []
    | c :: rest =>
      match lookupMatch ctx (c :: rest) with
      | some kv => kv.2 ++ specSubstF fuel ctx ((c :: rest).drop (placeholder kv.1).length)
      | none => c :: specSubstF fuel ctx rest

/-- The substitution policy in the words of the spec: one simultaneous
left-to-right pass over the template, replacing each occurrence of a
placeholder whose key is bound in the context by that key's (first) bound
value, and leaving all other characters — in particular placeholders whose
key is not bound — verbatim.  Defined here only to be compared against
`renderTemplate`, which embeds what the code does. -/
def specSubst (ctx : List (Str × Str)) (s : Str) : Str := specSubstF s.length ctx s

/-- Template segments: a well-formed template is a sequence of brace-free
literal chunks and placeholders with brace-free keys. -/
inductive Seg where
  | lit (s : Str)
  | ph (k : Str)

/-- Concatenate a segment sequence back into the raw template text. -/
def flattenSegs : List Seg → Str
  | [] => []
  | .lit s :: rest => s ++ flattenSegs rest
  | .ph k :: rest => placeholder k ++ flattenSegs rest

/-- Well-formedness of one segment: its text carries no brace characters
of its own. -/
def segWF : Seg → Bool
  | .lit s => braceFree s
  | .ph k => braceFree k

/-- Well-formedness of a context: every key and every value is
brace-free. -/
def ctxWF (ctx : List (Str × Str)) : Bool :=
  ctx.all (fun kv => braceFree kv.1 && braceFree kv.2)

/-- Simultaneous substitution at the segment level: a placeholder whose key
is bound in the context becomes the first bound value, any other segment is
kept verbatim. -/
def substSeg (ctx : List (Str × Str)) : Seg → Seg
  | .lit s => .lit s
  | .ph k =>
    match ctx.find? (fun kv => kv.1 == k) with
    | some kv => .lit kv.2
    | none => .ph k

/-- One single-key replacement pass at the segment level. -/
def substOne (k rep : Str) : Seg → Seg
  | .lit s => .lit s
  | .ph j => bif j == k then .lit rep else .ph j

/-- JSON values, standing for the `unknown` / `Record<string, unknown>`
payloads that flow through the wrapper (tool inputs, tool results). -/
inductive Json where
  | str (s : Str)
  | num (n : Int)
  | bool (b : Bool)
  | null
  | arr (xs : List Json)
  | obj (fields : List (Str × Json))

/-- Escape of one character inside a JSON string literal (the quote,
backslash and common control characters; other characters verbatim). -/
def escChar (c : Char) : Str :=
  if c = '"' then ['\\', '"']
  else if c = '\\' then ['\\', '\\']
  else if c = '\n' then ['\\', 'n']
  else if c = '\t' then ['\\', 't']
  else if c = '\r' then ['\\', 'r']
  else [c]

/-- A JSON string literal: quote, escaped characters, quote. -/
def quoteStr (s : Str) : Str := '"' :: (s.foldr (fun c acc => escChar c ++ acc) [] ++ ['"'])

/-- Comma-join of already-serialized parts. -/
def commaSep : List Str → Str
  | [] => []
  | [s] => s
  | s :: rest => s ++ ',' :: commaSep rest

mutual

/-- Model of `JSON.stringify` on the `Json` values above: strings quoted
and escaped, numbers and literals printed, arrays bracketed, objects braced
with fields in insertion order. -/
def jsonStringify : Json → Str
  | .str s => quoteStr s
  | .num n => (toString n).data
  | .bool true => "true".data
  | .bool false => "false".data
  | .null => "null".data
  | .arr xs => '[' :: (commaSep (stringifyArr xs) ++ [']'])
  | .obj fs => lbrace :: (commaSep (stringifyObj fs) ++ [rbrace])

/-- Serialization of the elements of a JSON array. -/
def stringifyArr : List Json → List Str
  | [] => []
  | x :: xs => jsonStringify x :: stringifyArr xs

/-- Serialization of the fields of a JSON object. -/
def stringifyObj : List (Str × Json) → List Str
  | [] => []
  | f :: fs => (quoteStr f.1 ++ ':' :: jsonStringify f.2) :: stringifyObj fs

end

/-- Message roles accepted by the wrapper (`"user" | "assistant"`). -/
inductive Role where
  | user
  | assistant
deriving DecidableEq

/-- Structured content blocks that `continueWithToolResult` smuggles
through the `ChatMessage` type via its `as any` cast: an assistant
`tool_use` block and a user `tool_result` block (with the serialized
output). -/
inductive ContentBlock where
  | tool_use (id : Str) (name : Str) (input : Json)
  | tool_result (tool_use_id : Str) (content : Str)

/-- Message content: either plain text (the declared `content: string` of
`ChatMessage`) or a list of structured blocks (produced only by
`continueWithToolResult`). -/
inductive MsgContent where
  | text (s : Str)
  | blocks (bs : List ContentBlock)

/-- The wrapper's `ChatMessage` interface. -/
structure ChatMessage where
  role : Role
  content : MsgContent

/-- A message in the shape submitted to the backend. -/
structure AnthropicMessage where
  role : Role
  content : MsgContent

/-- The per-message conversion `chat` performs
(`messages.map((msg) => ({role: msg.role, content: msg.content}))`):
role and content are carried over unchanged. -/
def convMessage (m : ChatMessage) : AnthropicMessage := ⟨m.role, m.content⟩

/-- One entry of `toolDefinitions` (agent config). -/
structure ToolDefinition where
  name : Str
  description : Str
  input_schema : Json

/-- A tool schema in the shape submitted to the backend. -/
structure AnthropicTool where
  name : Str
  description : Str
  input_schema : Json

/-- The module-level conversion of `toolDefinitions` to Anthropic format
(field-for-field copy). -/
def convTool (t : ToolDefinition) : AnthropicTool :=
  ⟨t.name, t.description, t.input_schema⟩

/-- The fields of `agentConfig` the wrapper reads. -/
structure AgentConfig where
  model : Str
  systemPrompt : Str
  escalationTriggers : List Str

/-- ClientContext after the `String(value)` coercion the code applies:
the entries of the JavaScript object, in insertion order. -/
abbrev ClientContext := List (Str × Str)

/-- The request object passed to `anthropic.messages.create` (and, without
the `tools` field, to `anthropic.messages.stream`).  `tools := none`
stands for the field being `undefined`/absent. -/
structure CreateRequest where
  model : Str
  max_tokens : Nat
  system : Str
  messages : List AnthropicMessage
  tools : Option (List AnthropicTool)

/-- A content block of the backend response: text or tool use. -/
inductive RespContentBlock where
  | text (s : Str)
  | tool_use (id : Str) (name : Str) (input : Json)

/-- Discriminator for text blocks (`c.type === "text"`). -/
def RespContentBlock.isText : RespContentBlock → Bool
  | .text _ => true
  | _ => false

/-- Discriminator for tool-use blocks (`c.type === "tool_use"`). -/
def RespContentBlock.isToolUse : RespContentBlock → Bool
  | .tool_use _ _ _ => true
  | _ => false

/-- The backend response shape the wrapper consumes.  `stop_reason` is
kept as the raw wire string: the code converts it with an unchecked
TypeScript `as` cast, which performs no runtime validation. -/
structure MessagesResponse where
  content : List RespContentBlock
  stop_reason : Str

/-- The wrapper's `ToolCall` interface. -/
structure ToolCall where
  id : Str
  name : Str
  input : Json

/-- The wrapper's `AgentResponse` interface.  `stopReason` is a raw string
for the same reason as `MessagesResponse.stop_reason`. -/
structure AgentResponse where
  content : Str
  toolCalls : Option (List ToolCall)
  stopReason : Str

/-- Observable side effects of the wrapper, recorded as an explicit trace:
a network call to the model backend, or the execution of a tool.
Diagnostic `console.error` logging is not modeled. -/
inductive Effect where
  | backendCall (req : CreateRequest)
  | toolExec (name : Str) (input : Json)

/-- System-prompt construction shared by `chat` and `streamChat`: start
from `agentConfig.systemPrompt`; when a client context is present, run one
global placeholder replacement per entry, sequentially. -/
def buildSystemPrompt (cfg : AgentConfig) (clientContext : Option ClientContext) : Str :=
  match clientContext with
  | some ctx => renderTemplate cfg.systemPrompt ctx
  | none => cfg.systemPrompt

/-- The request `chat` builds for `anthropic.messages.create`: the fixed
model and `max_tokens: 1024`, the rendered system prompt, the converted
message list, and the converted tool list when non-empty (`undefined`
otherwise). -/
def mkRequest (cfg : AgentConfig) (toolDefs : List ToolDefinition)
    (messages : List ChatMessage) (clientContext : Option ClientContext) : CreateRequest :=
  let tools := toolDefs.map convTool
  { model := cfg.model
    max_tokens := 1024
    system := buildSystemPrompt cfg clientContext
    messages := messages.map convMessage
    tools := if tools.length > 0 then some tools else none }

/-- Text extraction of `chat`: the first `text` block's text, or the empty
string when no text block exists
(`response.content.find((c) => c.type === "text")`). -/
def extractContent (resp : MessagesResponse) : Str :=
  match resp.content.find? RespContentBlock.isText with
  | some (.text s) => s
  | _ => []

/-- Tool-call extraction of `chat`: filter the `tool_use` blocks, then map
each to a `ToolCall` (the code's `map` + `filter(Boolean)` over the
filtered list, which never actually drops an element). -/
def extractToolCalls (resp : MessagesResponse) : List ToolCall :=
  (resp.content.filter RespContentBlock.isToolUse).filterMap fun b =>
    match b with
    | .tool_use id name input => some ⟨id, name, input⟩
    | _ => none

/-- The projection a `tool_use` block contributes to the returned tool
calls (used to state exactness of the extraction). -/
def toToolCall : RespContentBlock → Option ToolCall
  | .tool_use id name input => some ⟨id, name, input⟩
  | _ => none

/-- The `chat` function of lib/claude.ts with its effects made explicit.
The backend (`anthropic.messages.create`) is an oracle mapping the request
to either a response or an error value; `chat` builds the request, submits
it once, and either post-processes the response or rethrows the error
unchanged.  The returned trace lists every effect of the call. -/
def chatT {ε : Type} (backend : CreateRequest → Except ε MessagesResponse)
    (cfg : AgentConfig) (toolDefs : List ToolDefinition)
    (messages : List ChatMessage) (clientContext : Option ClientContext) :
    Except ε AgentResponse × List Effect :=
  let req := mkRequest cfg toolDefs messages clientContext
  match backend req with
  | .ok response =>
    let content := extractContent response
    let toolCalls := extractToolCalls response
    (.ok { content := content
           toolCalls := if toolCalls.length > 0 then some toolCalls else none
           stopReason := response.stop_reason },
      [.backendCall req])
  | .error e => (.error e, [.backendCall req])

/-- The result of `chat` (the value resolved or the error rethrown). -/
def chat {ε : Type} (backend : CreateRequest → Except ε MessagesResponse)
    (cfg : AgentConfig) (toolDefs : List ToolDefinition)
    (messages : List ChatMessage) (clientContext : Option ClientContext) :
    Except ε AgentResponse :=
  (chatT backend cfg toolDefs messages clientContext).1

/-- The `executeTool` function: delegates to the tool implementation
(`executeToolCall(toolCall.name, toolCall.input)`), recorded as a
tool-execution effect. -/
def executeTool (executor : Str → Json → Json) (toolCall : ToolCall) : Json × List Effect :=
  (executor toolCall.name toolCall.input, [.toolExec toolCall.name toolCall.input])

/-- The synthetic assistant message `continueWithToolResult` appends: one
`tool_use` block carrying the tool call's id, name and input. -/
def mkToolUseMessage (toolCall : ToolCall) : ChatMessage :=
  ⟨.assistant, .blocks [.tool_use toolCall.id toolCall.name toolCall.input]⟩

/-- The synthetic user message `continueWithToolResult` appends: one
`tool_result` block carrying the tool call's id and the
`JSON.stringify`-serialized tool output. -/
def mkToolResultMessage (toolCall : ToolCall) (toolResult : Json) : ChatMessage :=
  ⟨.user, .blocks [.tool_result toolCall.id (jsonStringify toolResult)]⟩

/-- The `continueWithToolResult` function: append the synthetic assistant
tool-call message and the synthetic user tool-result message to the input
history, then call `chat` on the extended history. -/
def continueWithToolResult {ε : Type} (backend : CreateRequest → Except ε MessagesResponse)
    (cfg : AgentConfig) (toolDefs : List ToolDefinition)
    (messages : List ChatMessage) (toolCall : ToolCall) (toolResult : Json)
    (clientContext : Option ClientContext) :
    Except ε AgentResponse × List Effect :=
  let updatedMessages :=
    messages ++ [mkToolUseMessage toolCall, mkToolResultMessage toolCall toolResult]
  chatT backend cfg toolDefs updatedMessages clientContext

/-- Lower-casing as applied by `toLowerCase()` (character-wise). -/
def toLowerStr (s : Str) : Str := s.map Char.toLower

/-- Model of `String.prototype.includes`: the needle occurs as a
contiguous substring of the haystack. -/
def listIncludes : Str → Str → Bool
  | [], sub => sub.isEmpty
  | c :: t, sub => sub.isPrefixOf (c :: t) || listIncludes t sub

/-- The `shouldEscalate` function: lower-case the message once, then test
whether any configured escalation trigger, lower-cased, occurs in it. -/
def shouldEscalate (cfg : AgentConfig) (message : Str) : Bool :=
  let lowerMessage := toLowerStr message
  cfg.escalationTriggers.any (fun trigger => listIncludes lowerMessage (toLowerStr trigger))

/-- One delta payload of a streaming event. -/
inductive StreamDelta where
  | text_delta (text : Str)
  | other_delta

/-- One event of the backend stream. -/
inductive StreamEvent where
  | content_block_delta (delta : StreamDelta)
  | other_event

/-- The request `streamChat` builds for `anthropic.messages.stream`: the
same model, `max_tokens`, rendered system prompt and converted messages as
`chat`, but no `tools` field at all. -/
def mkStreamRequest (cfg : AgentConfig) (messages : List ChatMessage)
    (clientContext : Option ClientContext) : CreateRequest :=
  { model := cfg.model
    max_tokens := 1024
    system := buildSystemPrompt cfg clientContext
    messages := messages.map convMessage
    tools := none }

/-- The `streamChat` async generator: submit the stream request, then
yield the text of every `content_block_delta`/`text_delta` event, in the
order the backend emits them.  The stream backend is an oracle mapping the
request to its finite event sequence; the generator's output is the list
of yielded fragments in yield order. -/
def streamChat (streamBackend : CreateRequest → List StreamEvent)
    (cfg : AgentConfig) (messages : List ChatMessage)
    (clientContext : Option ClientContext) : List Str :=
  (streamBackend (mkStreamRequest cfg messages clientContext)).filterMap fun e =>
    match e with
    | .content_block_delta (.text_delta s) => some s
    | _ => none

/-- One row of the `agent_configurations` table as written by
`completeOnboarding` (onboarding-flow.md). -/
structure AgentConfigurationRow where
  user_id : Str
  agent_type : Str
  configuration : Json
  status : Str

/-- One POST to `/api/agents/provision` as issued by
`completeOnboarding`. -/
structure ProvisionRequest where
  userId : Str
  flowId : Str
  configuration : Json

/-- The externally visible state `completeOnboarding` touches: the
`agent_configurations` table (rows in insertion order) and the sequence of
provisioning POSTs issued so far. -/
structure OnboardingStore where
  agent_configurations : List AgentConfigurationRow
  provisionRequests : List ProvisionRequest

/-- The `completeOnboarding` function of onboarding-flow.md: INSERT a new
`agent_configurations` row (status `active`), then POST the provisioning
request.  There is no existence check, no upsert, and no guard against the
flow already being completed. -/
def completeOnboarding (userId flowId : Str) (allData : Json)
    (store : OnboardingStore) : OnboardingStore :=
  let afterInsert : OnboardingStore :=
    { store with
      agent_configurations :=
        store.agent_configurations ++ [⟨userId, flowId, allData, "active".data⟩] }
  { afterInsert with
    provisionRequests :=
      afterInsert.provisionRequests ++ [⟨userId, flowId, allData⟩] }

/-- Concrete context whose first value itself contains placeholder text
(legal: context values are arbitrary strings). -/
def ctxCascade : ClientContext := [(['a'], placeholder ['b']), (['b'], ['X'])]

/-- Concrete template consisting of a single placeholder. -/
def tmplCascade : Str := placeholder ['a']

/-- Concrete context with brace-free values (one of them empty). -/
def ctxSpan : ClientContext := [(['a'], []), (['b'], ['Y'])]

/-- Concrete template in which a placeholder for `a` sits inside stray
brace characters, so that replacing it creates a placeholder for `b` that
spans the replacement site. -/
def tmplSpan : Str := lbrace :: lbrace :: 'b' :: (placeholder ['a'] ++ [rbrace, rbrace])

/-- Concrete context whose key contains a regex dot (brace-free, so it is
inside the rejected hypothesis domain of a literal-replacement model). -/
def ctxDot : ClientContext := [(['a', '.', 'c'], ['X'])]

/-- Concrete template containing a placeholder for the key `axc`, which
the regex built from the key containing a dot also matches. -/
def tmplDot : Str := placeholder ['a', 'x', 'c']

/-- Concrete context whose value is a dollar escape (`$$`). -/
def ctxDollar : ClientContext := [(['a'], ['$', '$'])]

/-- Concrete template consisting of the placeholder for the dollar
context's key. -/
def tmplDollar : Str := placeholder ['a']

/-- Demonstration template with one bound and one unbound placeholder
(well-formed segments). -/
def segsDemo : List Seg :=
  [Seg.lit "Hello ".data, Seg.ph "name".data,
   Seg.lit ", welcome to ".data, Seg.ph "company".data]

/-- Demonstration context binding only `name`. -/
def ctxDemo : ClientContext := [("name".data, "Bob".data)]

/-- Concrete agent configuration used by the witnesses. -/
def cfg0 : AgentConfig :=
  { model := "claude-model".data
    systemPrompt := "You help ".data ++ placeholder "company".data
    escalationTriggers := ["manager".data, "lawsuit".data] }

/-- Concrete non-empty tool-definition list used by the witnesses. -/
def toolDefs0 : List ToolDefinition :=
  [{ name := "lookup".data, description := "look up an order".data, input_schema := Json.null }]

/-- Concrete backend response with one text block. -/
def respOk0 : MessagesResponse :=
  { content := [RespContentBlock.text "hi".data], stop_reason := "end_turn".data }

/-- Concrete backend response with a stop reason outside the wrapper's
declared enum (the live API can stop with `refusal`, `pause_turn` or
`stop_sequence`, none of which the unchecked cast filters out). -/
def respRefusal : MessagesResponse :=
  { content := [], stop_reason := "refusal".data }

/-- Concrete backend response requesting two tools after a text block. -/
def respTools : MessagesResponse :=
  { content :=
      [RespContentBlock.text "calling".data,
       RespContentBlock.tool_use "t1".data "lookup".data
         (Json.obj [("id".data, Json.str "42".data)]),
       RespContentBlock.tool_use "t2".data "other".data Json.null]
    stop_reason := "tool_use".data }

/-- Concrete backend response with two text blocks. -/
def respTwoTexts : MessagesResponse :=
  { content := [RespContentBlock.text "A".data, RespContentBlock.text "B".data]
    stop_reason := "end_turn".data }

/-- The agent response `chat` produces from `respOk0`. -/
def agentRespOk0 : AgentResponse :=
  { content := "hi".data
    toolCalls := none
    stopReason := "end_turn".data }

/-- The agent response `chat` produces from `respRefusal`. -/
def agentRespRefusal : AgentResponse :=
  { content := []
    toolCalls := none
    stopReason := "refusal".data }

end VAgents

namespace VAgents

theorem isPrefixOf_true_iff {l₁ l₂ : Str} : l₁.isPrefixOf l₂ = true ↔ l₁ <+: l₂ := by
  simp

theorem placeholder_ne_nil (k : Str) : placeholder k ≠ [] := by
  simp [placeholder]

theorem placeholder_length (k : Str) : (placeholder k).length = k.length + 4 := by
  simp [placeholder]

theorem braceFree_cons {c : Char} {s : Str} :
    braceFree (c :: s) = true ↔ (c ≠ lbrace ∧ c ≠ rbrace) ∧ braceFree s = true := by
  simp [braceFree]

theorem drop_pat_length_le {pat : Str} (c : Char) (rest : Str) (hne : pat ≠ []) :
    ((c :: rest).drop pat.length).length ≤ rest.length := by
  have : 1 ≤ pat.length := by
    cases pat with
    | nil => exact absurd rfl hne
    | cons a l => simp
  simp only [List.length_drop, List.length_cons]
  omega

theorem replaceAllF_irrel (f₁ : Nat) : ∀ (f₂ : Nat) (s pat rep : Str),
    s.length ≤ f₁ → s.length ≤ f₂ →
    replaceAllF f₁ s pat rep = replaceAllF f₂ s pat rep := by
  induction f₁ with
  | zero =>
    intro f₂ s pat rep h1 _
    have hs : s = [] := List.eq_nil_of_length_eq_zero (Nat.le_zero.mp h1)
    subst hs
    cases f₂ <;> simp [replaceAllF]
  | succ f ih =>
    intro f₂ s pat rep h1 h2
    match s, h1, h2 with
    | [], _, _ => cases f₂ <;> simp [replaceAllF]
    | c :: rest, h1, h2 =>
      match f₂, h2 with
      | g + 1, h2 =>
        simp only [replaceAllF]
        cases hc : (pat.isPrefixOf (c :: rest) && !pat.isEmpty) with
        | true =>
          simp only [cond_true]
          have hpat : pat ≠ [] := by
            have := (Bool.and_eq_true_iff.mp hc).2
            simpa using this
          have hlen := drop_pat_length_le c rest hpat
          exact congrArg (rep ++ ·)
            (ih g _ pat rep (Nat.le_trans hlen (Nat.le_of_succ_le_succ h1))
              (Nat.le_trans hlen (Nat.le_of_succ_le_succ h2)))
        | false =>
          simp only [cond_false]
          exact congrArg (c :: ·)
            (ih g rest pat rep (Nat.le_of_succ_le_succ h1) (Nat.le_of_succ_le_succ h2))

theorem replaceAll_nil (pat rep : Str) : replaceAll [] pat rep = [] := rfl

theorem guard_true_iff {pat s : Str} :
    (pat.isPrefixOf s && !pat.isEmpty) = true ↔ pat <+: s ∧ pat ≠ [] := by
  simp

theorem replaceAll_cons_pos {pat : Str} {c : Char} {rest : Str} (rep : Str)
    (hpre : pat <+: (c :: rest)) (hne : pat ≠ []) :
    replaceAll (c :: rest) pat rep =
      rep ++ replaceAll ((c :: rest).drop pat.length) pat rep := by
  have hb : (pat.isPrefixOf (c :: rest) && !pat.isEmpty) = true :=
    guard_true_iff.mpr ⟨hpre, hne⟩
  show replaceAllF (rest.length + 1) (c :: rest) pat rep = _
  simp only [replaceAllF, hb, cond_true]
  have hlen := drop_pat_length_le c rest hne
  rw [replaceAllF_irrel rest.length ((c :: rest).drop pat.length).length _ pat rep hlen
    (Nat.le_refl _)]
  rfl

theorem replaceAll_cons_neg {pat : Str} {c : Char} {rest : Str} (rep : Str)
    (hpre : ¬ pat <+: (c :: rest)) :
    replaceAll (c :: rest) pat rep = c :: replaceAll rest pat rep := by
  have hb : (pat.isPrefixOf (c :: rest) && !pat.isEmpty) = false :=
    Bool.eq_false_iff.mpr (fun h => hpre (guard_true_iff.mp h).1)
  show replaceAllF (rest.length + 1) (c :: rest) pat rep = _
  simp only [replaceAllF, hb, cond_false]
  rfl

theorem specSubstF_irrel (f₁ : Nat) : ∀ (f₂ : Nat) (ctx : List (Str × Str)) (s : Str),
    s.length ≤ f₁ → s.length ≤ f₂ →
    specSubstF f₁ ctx s = specSubstF f₂ ctx s := by
  induction f₁ with
  | zero =>
    intro f₂ ctx s h1 _
    have hs : s = [] := List.eq_nil_of_length_eq_zero (Nat.le_zero.mp h1)
    subst hs
    cases f₂ <;> simp [specSubstF]
  | succ f ih =>
    intro f₂ ctx s h1 h2
    match s, h1, h2 with
    | [], _, _ => cases f₂ <;> simp [specSubstF]
    | c :: rest, h1, h2 =>
      match f₂, h2 with
      | g + 1, h2 =>
        simp only [specSubstF]
        cases hc : lookupMatch ctx (c :: rest) with
        | some kv =>
          have hlen := @drop_pat_length_le (placeholder kv.1) c rest (placeholder_ne_nil kv.1)
          exact congrArg (kv.2 ++ ·)
            (ih g ctx _ (Nat.le_trans hlen (Nat.le_of_succ_le_succ h1))
              (Nat.le_trans hlen (Nat.le_of_succ_le_succ h2)))
        | none =>
          exact congrArg (c :: ·)
            (ih g ctx rest (Nat.le_of_succ_le_succ h1) (Nat.le_of_succ_le_succ h2))

theorem specSubst_nil (ctx : List (Str × Str)) : specSubst ctx [] = [] := rfl

theorem specSubst_cons_match {ctx : List (Str × Str)} {c : Char} {rest : Str}
    {kv : Str × Str} (h : lookupMatch ctx (c :: rest) = some kv) :
    specSubst ctx (c :: rest) =
      kv.2 ++ specSubst ctx ((c :: rest).drop (placeholder kv.1).length) := by
  show specSubstF (rest.length + 1) ctx (c :: rest) = _
  simp only [specSubstF, h]
  have hlen := @drop_pat_length_le (placeholder kv.1) c rest (placeholder_ne_nil kv.1)
  rw [specSubstF_irrel rest.length ((c :: rest).drop (placeholder kv.1).length).length ctx _
    hlen (Nat.le_refl _)]
  rfl

theorem specSubst_cons_nomatch {ctx : List (Str × Str)} {c : Char} {rest : Str}
    (h : lookupMatch ctx (c :: rest) = none) :
    specSubst ctx (c :: rest) = c :: specSubst ctx rest := by
  show specSubstF (rest.length + 1) ctx (c :: rest) = _
  simp only [specSubstF, h]
  rfl

theorem braceFree_noOpen {s : Str} (h : braceFree s = true) : noOpen s = true := by
  simp only [braceFree, List.all_eq_true] at h
  simp only [noOpen, List.all_eq_true]
  intro c hc
  exact (Bool.and_eq_true_iff.mp (h c hc)).1

theorem noOpen_append {s t : Str} : noOpen (s ++ t) = (noOpen s && noOpen t) := by
  simp [noOpen, List.all_append]

theorem placeholder_not_prefix_of_ne {k : Str} {c : Char} {s : Str} (hc : c ≠ lbrace) :
    ¬ placeholder k <+: (c :: s) := by
  intro h
  rw [placeholder] at h
  exact hc ((List.cons_prefix_cons.mp h).1).symm

theorem key_rb_prefix : ∀ (k j t : Str), braceFree j = true → braceFree k = true →
    (k ++ [rbrace, rbrace]) <+: (j ++ rbrace :: rbrace :: t) → k = j := by
  intro k
  induction k with
  | nil =>
    intro j t hj _ h
    cases j with
    | nil => rfl
    | cons d j' =>
      simp only [List.nil_append, List.cons_append] at h
      exact absurd ((List.cons_prefix_cons.mp h).1).symm ((braceFree_cons.mp hj).1).2
  | cons c k' ih =>
    intro j t hj hk h
    cases j with
    | nil =>
      simp only [List.cons_append, List.nil_append] at h
      exact absurd ((List.cons_prefix_cons.mp h).1) ((braceFree_cons.mp hk).1).2
    | cons d j' =>
      simp only [List.cons_append] at h
      obtain ⟨hcd, h'⟩ := List.cons_prefix_cons.mp h
      rw [hcd, ih j' t (braceFree_cons.mp hj).2 (braceFree_cons.mp hk).2 h']

theorem placeholder_prefix_append_iff {j k : Str} (t : Str) (hj : braceFree j = true)
    (hk : braceFree k = true) :
    placeholder k <+: (placeholder j ++ t) ↔ k = j := by
  constructor
  · intro h
    have hnorm : placeholder j ++ t = lbrace :: lbrace :: (j ++ rbrace :: rbrace :: t) := by
      simp [placeholder]
    rw [hnorm, placeholder] at h
    have h1 := (List.cons_prefix_cons.mp h).2
    have h2 := (List.cons_prefix_cons.mp h1).2
    exact key_rb_prefix k j t hj hk h2
  · intro h
    subst h
    exact List.prefix_append _ _

theorem placeholder_not_prefix_offset1 {k j : Str} (t : Str) (hj : braceFree j = true) :
    ¬ placeholder k <+: (lbrace :: (j ++ rbrace :: rbrace :: t)) := by
  intro h
  rw [placeholder] at h
  have h1 := (List.cons_prefix_cons.mp h).2
  cases j with
  | nil =>
    simp only [List.nil_append] at h1
    exact absurd ((List.cons_prefix_cons.mp h1).1) (by decide)
  | cons d j' =>
    simp only [List.cons_append] at h1
    exact absurd ((List.cons_prefix_cons.mp h1).1).symm ((braceFree_cons.mp hj).1).1

theorem replaceAll_skip : ∀ {s : Str}, noOpen s = true → ∀ (t k rep : Str),
    replaceAll (s ++ t) (placeholder k) rep = s ++ replaceAll t (placeholder k) rep := by
  intro s
  induction s with
  | nil =>
    intro _ t k rep
    simp
  | cons c s' ih =>
    intro hs t k rep
    simp only [noOpen, List.all_cons, Bool.and_eq_true_iff] at hs
    have hc : c ≠ lbrace := by simpa using hs.1
    have hs' : noOpen s' = true := hs.2
    rw [List.cons_append, replaceAll_cons_neg rep (placeholder_not_prefix_of_ne hc),
      ih hs' t k rep]
    rfl

theorem replaceAll_at_placeholder (k t rep : Str) :
    replaceAll (placeholder k ++ t) (placeholder k) rep =
      rep ++ replaceAll t (placeholder k) rep := by
  have hform : placeholder k ++ t = lbrace :: ((lbrace :: (k ++ [rbrace, rbrace])) ++ t) := by
    simp [placeholder]
  have hpre : placeholder k <+: (lbrace :: ((lbrace :: (k ++ [rbrace, rbrace])) ++ t)) := by
    rw [← hform]
    exact List.prefix_append _ _
  rw [hform, replaceAll_cons_pos rep hpre (placeholder_ne_nil k), ← hform, List.drop_left]

theorem replaceAll_skip_other {j k : Str} (hj : braceFree j = true) (hk : braceFree k = true)
    (hne : k ≠ j) (t rep : Str) :
    replaceAll (placeholder j ++ t) (placeholder k) rep =
      placeholder j ++ replaceAll t (placeholder k) rep := by
  have hform : placeholder j ++ t = lbrace :: (lbrace :: (j ++ rbrace :: rbrace :: t)) := by
    simp [placeholder]
  have hpre0 : ¬ placeholder k <+: (lbrace :: (lbrace :: (j ++ rbrace :: rbrace :: t))) := by
    rw [← hform]
    intro h
    exact hne ((placeholder_prefix_append_iff t hj hk).mp h)
  rw [hform, replaceAll_cons_neg rep hpre0,
    replaceAll_cons_neg rep (placeholder_not_prefix_offset1 t hj)]
  have hjo : noOpen (j ++ [rbrace, rbrace]) = true := by
    rw [noOpen_append]
    exact Bool.and_eq_true_iff.mpr ⟨braceFree_noOpen hj, by decide⟩
  have hsplit : j ++ rbrace :: rbrace :: t = (j ++ [rbrace, rbrace]) ++ t := by simp
  rw [hsplit, replaceAll_skip hjo t k rep]
  simp [placeholder]

theorem lookupMatch_cons_ne {c : Char} (hc : c ≠ lbrace) (ctx : List (Str × Str)) (rest : Str) :
    lookupMatch ctx (c :: rest) = none := by
  rw [lookupMatch, List.find?_eq_none]
  intro kv _ h
  exact placeholder_not_prefix_of_ne hc (isPrefixOf_true_iff.mp h)

theorem specSubst_skip : ∀ {s : Str}, noOpen s = true → ∀ (ctx : List (Str × Str)) (t : Str),
    specSubst ctx (s ++ t) = s ++ specSubst ctx t := by
  intro s
  induction s with
  | nil =>
    intro _ ctx t
    simp
  | cons c s' ih =>
    intro hs ctx t
    simp only [noOpen, List.all_cons, Bool.and_eq_true_iff] at hs
    have hc : c ≠ lbrace := by simpa using hs.1
    rw [List.cons_append, specSubst_cons_nomatch (lookupMatch_cons_ne hc ctx (s' ++ t)),
      ih hs.2 ctx t]
    rfl

theorem lookupMatch_placeholder {ctx : List (Str × Str)} {j : Str}
    (hctx : ctx.all (fun kv => braceFree kv.1) = true) (hj : braceFree j = true) (t : Str) :
    lookupMatch ctx (placeholder j ++ t) = ctx.find? (fun kv => kv.1 == j) := by
  induction ctx with
  | nil => rfl
  | cons kv ctx' ih =>
    simp only [List.all_cons, Bool.and_eq_true_iff] at hctx
    by_cases he : kv.1 = j
    · rw [lookupMatch, List.find?_cons_of_pos, List.find?_cons_of_pos]
      · simpa using he
      · exact isPrefixOf_true_iff.mpr ((placeholder_prefix_append_iff t hj hctx.1).mpr he)
    · rw [lookupMatch, List.find?_cons_of_neg, List.find?_cons_of_neg]
      · exact ih hctx.2
      · simpa using he
      · intro h
        exact he ((placeholder_prefix_append_iff t hj hctx.1).mp (isPrefixOf_true_iff.mp h))

theorem specSubst_at_placeholder_found {ctx : List (Str × Str)} {j : Str} {kv : Str × Str}
    (hctx : ctx.all (fun kv => braceFree kv.1) = true) (hj : braceFree j = true)
    (hfind : ctx.find? (fun kv => kv.1 == j) = some kv) (t : Str) :
    specSubst ctx (placeholder j ++ t) = kv.2 ++ specSubst ctx t := by
  have hkey : kv.1 = j := by
    have := List.find?_some hfind
    simpa using this
  have hlm : lookupMatch ctx (placeholder j ++ t) = some kv := by
    rw [lookupMatch_placeholder hctx hj, hfind]
  have hform : placeholder j ++ t = lbrace :: ((lbrace :: (j ++ [rbrace, rbrace])) ++ t) := by
    simp [placeholder]
  rw [hform] at hlm
  rw [hform, specSubst_cons_match hlm, ← hform, hkey, List.drop_left]

theorem specSubst_at_placeholder_notfound {ctx : List (Str × Str)} {j : Str}
    (hctx : ctx.all (fun kv => braceFree kv.1) = true) (hj : braceFree j = true)
    (hfind : ctx.find? (fun kv => kv.1 == j) = none) (t : Str) :
    specSubst ctx (placeholder j ++ t) = placeholder j ++ specSubst ctx t := by
  have hlm : lookupMatch ctx (placeholder j ++ t) = none := by
    rw [lookupMatch_placeholder hctx hj, hfind]
  have hform : placeholder j ++ t = lbrace :: (lbrace :: (j ++ rbrace :: rbrace :: t)) := by
    simp [placeholder]
  rw [hform] at hlm
  have hlm1 : lookupMatch ctx (lbrace :: (j ++ rbrace :: rbrace :: t)) = none := by
    rw [lookupMatch, List.find?_eq_none]
    intro kv _ h
    exact placeholder_not_prefix_offset1 t hj (isPrefixOf_true_iff.mp h)
  rw [hform, specSubst_cons_nomatch hlm, specSubst_cons_nomatch hlm1]
  have hjo : noOpen (j ++ [rbrace, rbrace]) = true := by
    rw [noOpen_append]
    exact Bool.and_eq_true_iff.mpr ⟨braceFree_noOpen hj, by decide⟩
  have hsplit : j ++ rbrace :: rbrace :: t = (j ++ [rbrace, rbrace]) ++ t := by simp
  rw [hsplit, specSubst_skip hjo ctx t]
  simp [placeholder]

theorem substOne_WF {k rep : Str} (hrep : braceFree rep = true) :
    ∀ seg, segWF seg = true → segWF (substOne k rep seg) = true := by
  intro seg hseg
  cases seg with
  | lit s => exact hseg
  | ph j =>
    by_cases hj : j = k
    · have hb : (j == k) = true := by simpa using hj
      simp [substOne, hb, segWF, hrep]
    · have hb : (j == k) = false := by simpa using hj
      simp only [substOne, hb, cond_false]
      exact hseg

theorem replaceAll_flatten : ∀ {segs : List Seg}, segs.all segWF = true →
    ∀ {k : Str}, braceFree k = true → ∀ (rep : Str),
    replaceAll (flattenSegs segs) (placeholder k) rep =
      flattenSegs (segs.map (substOne k rep)) := by
  intro segs
  induction segs with
  | nil =>
    intro _ k _ rep
    exact replaceAll_nil _ _
  | cons seg rest ih =>
    intro hall k hk rep
    simp only [List.all_cons, Bool.and_eq_true_iff] at hall
    cases seg with
    | lit s =>
      have hs : braceFree s = true := hall.1
      simp only [flattenSegs, List.map_cons, substOne]
      rw [replaceAll_skip (braceFree_noOpen hs) _ k rep, ih hall.2 hk rep]
    | ph j =>
      have hj : braceFree j = true := hall.1
      by_cases he : j = k
      · subst he
        simp only [flattenSegs, List.map_cons, substOne, beq_self_eq_true, cond_true]
        rw [replaceAll_at_placeholder j _ rep, ih hall.2 hk rep]
      · have hne : k ≠ j := fun h => he h.symm
        have hbf : (j == k) = false := by simpa using he
        simp only [flattenSegs, List.map_cons, substOne, hbf, cond_false]
        rw [replaceAll_skip_other hj hk hne _ rep, ih hall.2 hk rep]

theorem substSeg_nil_eq : ∀ seg, substSeg [] seg = seg := by
  intro seg
  cases seg <;> rfl

theorem map_substSeg_nil : ∀ (segs : List Seg), segs.map (substSeg []) = segs := by
  intro segs
  induction segs with
  | nil => rfl
  | cons s rest ih => simp [substSeg_nil_eq, ih]

theorem substSeg_step (k v : Str) (ctx' : List (Str × Str)) :
    ∀ seg, substSeg ctx' (substOne k v seg) = substSeg ((k, v) :: ctx') seg := by
  intro seg
  cases seg with
  | lit s => rfl
  | ph j =>
    by_cases hj : j = k
    · have hb : (j == k) = true := by simpa using hj
      have hkj : ((k, v).1 == j) = true := by simpa using hj.symm
      simp only [substOne, hb, cond_true, substSeg]
      rw [List.find?_cons_of_pos]
      simpa using hkj
    · have hb : (j == k) = false := by simpa using hj
      have hkj : ¬ ((k, v).1 == j) = true := by simpa using fun h => hj h.symm
      simp only [substOne, hb, cond_false, substSeg]
      rw [List.find?_cons_of_neg]
      simpa using hkj

theorem map_substSeg_step (k v : Str) (ctx' : List (Str × Str)) :
    ∀ (segs : List Seg),
      (segs.map (substOne k v)).map (substSeg ctx') = segs.map (substSeg ((k, v) :: ctx')) := by
  intro segs
  induction segs with
  | nil => rfl
  | cons s rest ih => simp [substSeg_step, ih]

theorem literalRender_nil (t : Str) : literalRender t [] = t := rfl

theorem literalRender_cons (t : Str) (k v : Str) (ctx : List (Str × Str)) :
    literalRender t ((k, v) :: ctx) = literalRender (replaceAll t (placeholder k) v) ctx := rfl

theorem literalRender_flatten : ∀ (ctx : List (Str × Str)), ctxWF ctx = true →
    ∀ (segs : List Seg), segs.all segWF = true →
    literalRender (flattenSegs segs) ctx = flattenSegs (segs.map (substSeg ctx)) := by
  intro ctx
  induction ctx with
  | nil =>
    intro _ segs _
    rw [literalRender_nil, map_substSeg_nil]
  | cons kv ctx' ih =>
    intro hctx segs hsegs
    simp only [ctxWF, List.all_cons, Bool.and_eq_true_iff] at hctx
    have hk : braceFree kv.1 = true := hctx.1.1
    have hv : braceFree kv.2 = true := hctx.1.2
    have hctx' : ctxWF ctx' = true := by
      simpa [ctxWF] using hctx.2
    have hsegs' : (segs.map (substOne kv.1 kv.2)).all segWF = true := by
      simp only [List.all_eq_true] at hsegs ⊢
      intro seg hseg
      simp only [List.mem_map] at hseg
      obtain ⟨s0, hs0, rfl⟩ := hseg
      exact substOne_WF hv s0 (hsegs s0 hs0)
    calc literalRender (flattenSegs segs) (kv :: ctx')
        = literalRender (replaceAll (flattenSegs segs) (placeholder kv.1) kv.2) ctx' := rfl
      _ = literalRender (flattenSegs (segs.map (substOne kv.1 kv.2))) ctx' := by
          rw [replaceAll_flatten hsegs hk kv.2]
      _ = flattenSegs ((segs.map (substOne kv.1 kv.2)).map (substSeg ctx')) :=
          ih hctx' _ hsegs'
      _ = flattenSegs (segs.map (substSeg (kv :: ctx'))) := by
          rw [map_substSeg_step kv.1 kv.2 ctx' segs]

theorem ctxWF_keys {ctx : List (Str × Str)} (h : ctxWF ctx = true) :
    ctx.all (fun kv => braceFree kv.1) = true := by
  simp only [ctxWF, List.all_eq_true] at h
  simp only [List.all_eq_true]
  intro kv hkv
  exact (Bool.and_eq_true_iff.mp (h kv hkv)).1

theorem specSubst_flatten (ctx : List (Str × Str))
    (hkeys : ctx.all (fun kv => braceFree kv.1) = true) :
    ∀ (segs : List Seg), segs.all segWF = true →
    specSubst ctx (flattenSegs segs) = flattenSegs (segs.map (substSeg ctx)) := by
  intro segs
  induction segs with
  | nil =>
    intro _
    exact specSubst_nil ctx
  | cons seg rest ih =>
    intro hall
    simp only [List.all_cons, Bool.and_eq_true_iff] at hall
    cases seg with
    | lit s =>
      simp only [flattenSegs, List.map_cons, substSeg]
      rw [specSubst_skip (braceFree_noOpen hall.1) ctx _, ih hall.2]
    | ph j =>
      have hj : braceFree j = true := hall.1
      simp only [flattenSegs, List.map_cons]
      cases hf : ctx.find? (fun kv => kv.1 == j) with
      | some kv =>
        rw [specSubst_at_placeholder_found hkeys hj hf _, ih hall.2]
        simp [substSeg, hf, flattenSegs]
      | none =>
        rw [specSubst_at_placeholder_notfound hkeys hj hf _, ih hall.2]
        simp [substSeg, hf, flattenSegs]

theorem plainKey_braceFree {k : Str} (h : plainKey k = true) : braceFree k = true := by
  simp only [plainKey, List.all_eq_true] at h
  simp only [braceFree, List.all_eq_true]
  intro c hc
  have hpc := h c hc
  simp only [plainChar, Bool.and_eq_true_iff] at hpc
  have hm : isMeta c = false := by simpa using hpc.1
  have hcl : c ≠ lbrace := fun he => by
    rw [he] at hm
    exact absurd hm (by decide)
  have hcr : c ≠ rbrace := fun he => by
    rw [he] at hm
    exact absurd hm (by decide)
  simp [hcl, hcr]

theorem ctxOK_WF {ctx : List (Str × Str)} (h : ctxOK ctx = true) : ctxWF ctx = true := by
  simp only [ctxOK, List.all_eq_true] at h
  simp only [ctxWF, List.all_eq_true]
  intro kv hkv
  have hk := h kv hkv
  simp only [Bool.and_eq_true_iff] at hk ⊢
  exact ⟨plainKey_braceFree hk.1, hk.2.1⟩

theorem regexParse_plain : ∀ {k : Str}, plainKey k = true →
    regexParse (k ++ ['\\', rbrace, '\\', rbrace]) = some (litAtoms (k ++ [rbrace, rbrace])) := by
  intro k
  induction k with
  | nil =>
    intro _
    rfl
  | cons c k' ih =>
    intro hp
    simp only [plainKey, List.all_cons, Bool.and_eq_true_iff] at hp
    have hpc := hp.1
    simp only [plainChar, Bool.and_eq_true_iff] at hpc
    have hmeta : isMeta c = false := by simpa using hpc.1
    have hdot : c ≠ '.' := by simpa using hpc.2
    have hbs : c ≠ '\\' := fun he => by
      rw [he] at hmeta
      exact absurd hmeta (by decide)
    show regexParse (c :: (k' ++ ['\\', rbrace, '\\', rbrace])) = _
    rw [regexParse.eq_def]
    dsimp only
    rw [if_neg hbs, if_neg hdot, if_neg (by simp [hmeta] : ¬ isMeta c = true), ih hp.2]
    simp [litAtoms]

theorem keyRegex_plain {k : Str} (h : plainKey k = true) :
    keyRegex k = some (litAtoms (placeholder k)) := by
  have h1 := regexParse_plain h
  show regexParse ('\\' :: lbrace :: '\\' :: lbrace :: (k ++ ['\\', rbrace, '\\', rbrace])) = _
  rw [show regexParse ('\\' :: lbrace :: '\\' :: lbrace :: (k ++ ['\\', rbrace, '\\', rbrace]))
      = ((regexParse (k ++ ['\\', rbrace, '\\', rbrace])).map
          (RAtom.lit lbrace :: ·)).map (RAtom.lit lbrace :: ·) from rfl, h1]
  simp [litAtoms, placeholder]

theorem atomsSplit_lit : ∀ (p s : Str),
    atomsSplit (litAtoms p) s =
      if p.isPrefixOf s then some (p, s.drop p.length) else none := by
  intro p
  induction p with
  | nil =>
    intro s
    cases s <;> rfl
  | cons a p' ih =>
    intro s
    cases s with
    | nil => rfl
    | cons c cs =>
      show atomsSplit (RAtom.lit a :: litAtoms p') (c :: cs) = _
      simp only [atomsSplit, atomMatches, List.isPrefixOf_cons₂]
      by_cases hac : a = c
      · subst hac
        simp only [beq_self_eq_true, if_true, ih cs, Bool.true_and]
        by_cases hpf : p'.isPrefixOf cs = true
        · simp [hpf]
        · have hf : p'.isPrefixOf cs = false := Bool.eq_false_iff.mpr hpf
          simp [hf]
      · have hb : (c == a) = false := by simpa using fun he => hac he.symm
        have hb2 : (a == c) = false := by simpa using hac
        simp [hb, hb2]

theorem expandDollar_dollarFree {m b a : Str} : ∀ {s : Str}, dollarFree s = true →
    expandDollar m b a s = s := by
  intro s
  induction s with
  | nil =>
    intro _
    rfl
  | cons c t ih =>
    intro h
    simp only [dollarFree, List.all_cons, Bool.and_eq_true_iff] at h
    have hc : c ≠ '$' := by simpa using h.1
    rw [expandDollar.eq_def]
    dsimp only
    rw [if_neg hc, ih h.2]

theorem regexReplaceF_lit : ∀ (f : Nat) (before s p rep : Str), dollarFree rep = true →
    regexReplaceF f before s (litAtoms p) rep = replaceAllF f s p rep := by
  intro f
  induction f with
  | zero =>
    intro before s p rep _
    rfl
  | succ f ih =>
    intro before s p rep hrep
    cases s with
    | nil => rfl
    | cons c rest =>
      cases p with
      | nil =>
        show (match (bif (litAtoms []).isEmpty then none
              else atomsSplit (litAtoms []) (c :: rest)) with
          | some mr => expandDollar mr.1 before mr.2 rep ++
              regexReplaceF f (before ++ mr.1) mr.2 (litAtoms []) rep
          | none => c :: regexReplaceF f (before ++ [c]) rest (litAtoms []) rep) = _
        simp only [litAtoms, List.map_nil, List.isEmpty_nil, cond_true]
        show c :: regexReplaceF f (before ++ [c]) rest (litAtoms []) rep = _
        rw [ih (before ++ [c]) rest [] rep hrep]
        rfl
      | cons a p' =>
        show (match (bif (litAtoms (a :: p')).isEmpty then none
              else atomsSplit (litAtoms (a :: p')) (c :: rest)) with
          | some mr => expandDollar mr.1 before mr.2 rep ++
              regexReplaceF f (before ++ mr.1) mr.2 (litAtoms (a :: p')) rep
          | none => c :: regexReplaceF f (before ++ [c]) rest (litAtoms (a :: p')) rep) = _
        rw [show (litAtoms (a :: p')).isEmpty = false from rfl]
        rw [show (bif false then none else atomsSplit (litAtoms (a :: p')) (c :: rest)) =
          atomsSplit (litAtoms (a :: p')) (c :: rest) from rfl]
        rw [atomsSplit_lit (a :: p') (c :: rest)]
        by_cases hpf : (a :: p').isPrefixOf (c :: rest) = true
        · rw [if_pos hpf]
          show expandDollar (a :: p') before ((c :: rest).drop (a :: p').length) rep ++
              regexReplaceF f (before ++ (a :: p')) ((c :: rest).drop (a :: p').length)
                (litAtoms (a :: p')) rep = _
          rw [expandDollar_dollarFree hrep, ih _ _ (a :: p') rep hrep]
          have hguard : (List.isPrefixOf (a :: p') (c :: rest) && !(a :: p').isEmpty) = true := by
            simp only [hpf, List.isEmpty_cons, Bool.not_false, Bool.and_self]
          show _ = replaceAllF (f + 1) (c :: rest) (a :: p') rep
          simp only [replaceAllF, hguard, cond_true]
        · have hf : (a :: p').isPrefixOf (c :: rest) = false := Bool.eq_false_iff.mpr hpf
          rw [if_neg (by simp [hf])]
          show c :: regexReplaceF f (before ++ [c]) rest (litAtoms (a :: p')) rep = _
          rw [ih (before ++ [c]) rest (a :: p') rep hrep]
          have hguard : (List.isPrefixOf (a :: p') (c :: rest) && !(a :: p').isEmpty) = false := by
            simp [hf]
          show _ = replaceAllF (f + 1) (c :: rest) (a :: p') rep
          simp only [replaceAllF, hguard, cond_false]

theorem regexReplace_lit (s p rep : Str) (hrep : dollarFree rep = true) :
    regexReplace s (litAtoms p) rep = replaceAll s p rep :=
  regexReplaceF_lit s.length [] s p rep hrep

theorem renderTemplate_eq_literal : ∀ (ctx : List (Str × Str)), ctxOK ctx = true →
    ∀ (t : Str), renderTemplate t ctx = literalRender t ctx := by
  intro ctx
  induction ctx with
  | nil =>
    intro _ t
    rfl
  | cons kv ctx' ih =>
    intro h t
    simp only [ctxOK, List.all_cons, Bool.and_eq_true_iff] at h
    have hstep : renderTemplate t (kv :: ctx') =
        renderTemplate (regexReplace t (litAtoms (placeholder kv.1)) kv.2) ctx' := by
      simp only [renderTemplate, List.foldl_cons, keyRegex_plain h.1.1]
    rw [hstep, regexReplace_lit t (placeholder kv.1) kv.2 h.1.2.2, ih h.2 _]
    rfl

theorem chatT_ok {ε : Type} (backend : CreateRequest → Except ε MessagesResponse)
    (cfg : AgentConfig) (toolDefs : List ToolDefinition)
    (messages : List ChatMessage) (ctx : Option ClientContext) (resp : MessagesResponse)
    (h : backend (mkRequest cfg toolDefs messages ctx) = Except.ok resp) :
    (chatT backend cfg toolDefs messages ctx).1 =
      Except.ok { content := extractContent resp
                  toolCalls := if (extractToolCalls resp).length > 0
                    then some (extractToolCalls resp) else none
                  stopReason := resp.stop_reason } := by
  simp only [chatT, h]

theorem chatT_trace {ε : Type} (backend : CreateRequest → Except ε MessagesResponse)
    (cfg : AgentConfig) (toolDefs : List ToolDefinition)
    (messages : List ChatMessage) (ctx : Option ClientContext) :
    (chatT backend cfg toolDefs messages ctx).2 =
      [Effect.backendCall (mkRequest cfg toolDefs messages ctx)] := by
  cases h : backend (mkRequest cfg toolDefs messages ctx) with
  | ok r => simp [chatT, h]
  | error e => simp [chatT, h]

theorem filter_filterMap_toolUse : ∀ (bs : List RespContentBlock),
    (bs.filter RespContentBlock.isToolUse).filterMap (fun b =>
      match b with
      | .tool_use id name input => some (⟨id, name, input⟩ : ToolCall)
      | _ => none) = bs.filterMap toToolCall := by
  intro bs
  induction bs with
  | nil => rfl
  | cons b rest ih =>
    cases b <;> simp [RespContentBlock.isToolUse, toToolCall, ih]

theorem extractToolCalls_eq (resp : MessagesResponse) :
    extractToolCalls resp = resp.content.filterMap toToolCall :=
  filter_filterMap_toolUse resp.content

theorem extractContent_none {resp : MessagesResponse}
    (h : ∀ b ∈ resp.content, b.isText = false) : extractContent resp = [] := by
  rw [extractContent]
  have hf : resp.content.find? RespContentBlock.isText = none :=
    List.find?_eq_none.mpr (fun x hx => by simp [h x hx])
  rw [hf]

theorem extractContent_first {resp : MessagesResponse} {pre : List RespContentBlock}
    {s : Str} {post : List RespContentBlock}
    (hc : resp.content = pre ++ RespContentBlock.text s :: post)
    (hpre : ∀ b ∈ pre, b.isText = false) :
    extractContent resp = s := by
  rw [extractContent, hc]
  have h1 : pre.find? RespContentBlock.isText = none :=
    List.find?_eq_none.mpr (fun x hx => by simp [hpre x hx])
  rw [List.find?_append, h1, Option.none_or, List.find?_cons_of_pos]
  rfl

theorem listIncludes_iff : ∀ (s sub : Str),
    listIncludes s sub = true ↔ ∃ pre post, s = pre ++ sub ++ post := by
  intro s
  induction s with
  | nil =>
    intro sub
    simp only [listIncludes, List.isEmpty_iff]
    constructor
    · intro h
      exact ⟨[], [], by simp [h]⟩
    · rintro ⟨pre, post, h⟩
      have h' := h.symm
      rw [List.append_assoc] at h'
      obtain ⟨h1, h2⟩ := List.append_eq_nil.mp h'
      exact (List.append_eq_nil.mp h2).1
  | cons c t ih =>
    intro sub
    simp only [listIncludes, Bool.or_eq_true]
    constructor
    · rintro (h | h)
      · obtain ⟨post, hpost⟩ := isPrefixOf_true_iff.mp h
        exact ⟨[], post, by simp [← hpost]⟩
      · obtain ⟨pre, post, hp⟩ := (ih sub).mp h
        exact ⟨c :: pre, post, by simp [hp]⟩
    · rintro ⟨pre, post, hp⟩
      cases pre with
      | nil =>
        left
        rw [isPrefixOf_true_iff]
        exact ⟨post, by simpa using hp.symm⟩
      | cons d pre' =>
        right
        apply (ih sub).mpr
        rw [List.cons_append, List.cons_append] at hp
        exact ⟨pre', post, (List.cons_eq_cons.mp hp).2⟩

/-- C1 (counterexample): the claim that `chat` substitutes every `{{k}}`
occurring in the template with the context's value for `k` and leaves
every other `{{k}}` verbatim fails on the code, in four independent ways.
First: the value bound to `a` is itself the text `{{b}}`; the sequential
per-entry replacement re-substitutes it with `b`'s value, so the
occurrence of `{{a}}` ends up as `X` instead of the bound value `{{b}}`.
Second: all values are brace-free, but replacing `{{a}}` (bound to the
empty string) creates an occurrence of `{{b}}` spanning the replacement
site, which the later entry substitutes, yielding `Y` where
occurrence-wise substitution leaves `{{b}}`.  Third: the key is spliced
into the pattern unescaped, so the brace-free key `a.c` builds a regex
whose dot also matches `{{axc}}` — a placeholder whose key is not bound —
and replaces it with `X` instead of leaving it verbatim.  Fourth: the
value is passed as a JavaScript replacement string, so the value `$$`
renders as the single character `$`, not as the bound value itself. -/
theorem c1_counterexample :
    (renderTemplate tmplCascade ctxCascade = ['X'] ∧
      specSubst ctxCascade tmplCascade = placeholder ['b'] ∧
      renderTemplate tmplCascade ctxCascade ≠ specSubst ctxCascade tmplCascade) ∧
    (renderTemplate tmplSpan ctxSpan = ['Y'] ∧
      specSubst ctxSpan tmplSpan = placeholder ['b'] ∧
      renderTemplate tmplSpan ctxSpan ≠ specSubst ctxSpan tmplSpan) ∧
    (renderTemplate tmplDot ctxDot = ['X'] ∧
      specSubst ctxDot tmplDot = tmplDot ∧
      renderTemplate tmplDot ctxDot ≠ specSubst ctxDot tmplDot) ∧
    (renderTemplate tmplDollar ctxDollar = ['$'] ∧
      specSubst ctxDollar tmplDollar = ['$', '$'] ∧
      renderTemplate tmplDollar ctxDollar ≠ specSubst ctxDollar tmplDollar) := by
  decide

/-- C1 (amended): for every client context whose keys are plain (made of
characters that are neither regex metacharacters nor the dot, hence in
particular brace-free, so the spliced pattern denotes the literal
placeholder) and whose values are brace-free and dollar-free (so the
replacement string is taken verbatim), and every template that decomposes
into brace-free literal chunks and well-delimited placeholders, the
sequential per-entry regex replacement `chat` performs renders exactly the
left-to-right simultaneous substitution: every `{{k}}` with `k` bound in
the context becomes the (first) bound value of `k`, and every other
character — including every `{{k}}` with `k` unbound — is left
verbatim. -/
theorem c1_render_substitution (ctx : ClientContext) (segs : List Seg)
    (hctx : ctxOK ctx = true) (hsegs : segs.all segWF = true) :
    renderTemplate (flattenSegs segs) ctx = specSubst ctx (flattenSegs segs) ∧
    renderTemplate (flattenSegs segs) ctx = flattenSegs (segs.map (substSeg ctx)) := by
  have hWF : ctxWF ctx = true := ctxOK_WF hctx
  have hb := renderTemplate_eq_literal ctx hctx (flattenSegs segs)
  have h1 := literalRender_flatten ctx hWF segs hsegs
  have h2 := specSubst_flatten ctx (ctxWF_keys hWF) segs hsegs
  exact ⟨(hb.trans h1).trans h2.symm, hb.trans h1⟩

/-- C1 (witness): the amended theorem applied to a concrete template with
one bound and one unbound placeholder; the bound key is substituted, the
unbound one is left verbatim. -/
theorem c1_render_substitution_witness :
    ctxOK ctxDemo = true ∧ segsDemo.all segWF = true ∧
    renderTemplate (flattenSegs segsDemo) ctxDemo =
      "Hello Bob, welcome to ".data ++ placeholder "company".data ∧
    (renderTemplate (flattenSegs segsDemo) ctxDemo = specSubst ctxDemo (flattenSegs segsDemo) ∧
      renderTemplate (flattenSegs segsDemo) ctxDemo =
        flattenSegs (segsDemo.map (substSeg ctxDemo))) :=
  ⟨by decide, by decide, by decide,
    c1_render_substitution ctxDemo segsDemo (by decide) (by decide)⟩

/-- C2: `completeOnboarding` is not idempotent — each call unconditionally
inserts a fresh `agent_configurations` row and issues a fresh provisioning
POST, so invoking the completion path twice for the same user and flow
inserts two rows and triggers provisioning twice, contradicting the
at-most-once provisioning requirement.  The theorem evaluates the code on
a repeated completion call. -/
theorem c2_completeOnboarding_not_idempotent (u f : Str) (d : Json) (store : OnboardingStore) :
    (completeOnboarding u f d (completeOnboarding u f d store)).provisionRequests.length
        = store.provisionRequests.length + 2 ∧
    (completeOnboarding u f d (completeOnboarding u f d store)).agent_configurations.length
        = store.agent_configurations.length + 2 := by
  simp [completeOnboarding]

/-- C3: `continueWithToolResult` submits exactly the input history
extended by the synthetic assistant tool-call message immediately followed
by the synthetic user tool-result message (correlated by the tool call's
id, with the serialized output), and behaves as `chat` on that extended
history; the single backend request carries exactly that message
sequence. -/
theorem c3_continueWithToolResult_sequence {ε : Type}
    (backend : CreateRequest → Except ε MessagesResponse)
    (cfg : AgentConfig) (toolDefs : List ToolDefinition)
    (messages : List ChatMessage) (toolCall : ToolCall) (toolResult : Json)
    (ctx : Option ClientContext) :
    continueWithToolResult backend cfg toolDefs messages toolCall toolResult ctx =
      chatT backend cfg toolDefs
        (messages ++ [mkToolUseMessage toolCall, mkToolResultMessage toolCall toolResult]) ctx ∧
    (continueWithToolResult backend cfg toolDefs messages toolCall toolResult ctx).2 =
      [Effect.backendCall (mkRequest cfg toolDefs
        (messages ++ [mkToolUseMessage toolCall, mkToolResultMessage toolCall toolResult]) ctx)] ∧
    (mkRequest cfg toolDefs
        (messages ++ [mkToolUseMessage toolCall, mkToolResultMessage toolCall toolResult])
        ctx).messages =
      messages.map convMessage ++
        [⟨Role.assistant,
          MsgContent.blocks [ContentBlock.tool_use toolCall.id toolCall.name toolCall.input]⟩,
         ⟨Role.user,
          MsgContent.blocks [ContentBlock.tool_result toolCall.id (jsonStringify toolResult)]⟩] := by
  refine ⟨rfl, chatT_trace backend cfg toolDefs _ ctx, ?_⟩
  simp [mkRequest, convMessage, mkToolUseMessage, mkToolResultMessage]

/-- C4 (counterexample): with a non-empty configured tool list, the
request `streamChat` submits is not the request `chat` submits — `chat`
sends the tool schemas, `streamChat` omits the `tools` field entirely. -/
theorem c4_stream_request_counterexample :
    (mkStreamRequest cfg0 [] none).tools = none ∧
    (mkRequest cfg0 toolDefs0 [] none).tools = some (toolDefs0.map convTool) ∧
    mkStreamRequest cfg0 [] none ≠ mkRequest cfg0 toolDefs0 [] none := by
  refine ⟨rfl, rfl, fun h => ?_⟩
  have htools := congrArg CreateRequest.tools h
  rw [show (mkStreamRequest cfg0 [] none).tools = none from rfl,
    show (mkRequest cfg0 toolDefs0 [] none).tools = some (toolDefs0.map convTool) from rfl]
    at htools
  exact Option.noConfusion htools

/-- C4 (amended): `streamChat` builds its request with the same model,
`max_tokens`, rendered system prompt and converted message list as `chat`,
but sends no tool schemas at all (the `tools` field is absent regardless
of the configured tool set); the emitted fragments are exactly the texts
of the backend's `text_delta` events, in the backend's emission order. -/
theorem c4_streamChat_request (cfg : AgentConfig) (toolDefs : List ToolDefinition)
    (messages : List ChatMessage) (ctx : Option ClientContext)
    (streamBackend : CreateRequest → List StreamEvent) :
    (mkStreamRequest cfg messages ctx).model = (mkRequest cfg toolDefs messages ctx).model ∧
    (mkStreamRequest cfg messages ctx).max_tokens
        = (mkRequest cfg toolDefs messages ctx).max_tokens ∧
    (mkStreamRequest cfg messages ctx).system = (mkRequest cfg toolDefs messages ctx).system ∧
    (mkStreamRequest cfg messages ctx).messages
        = (mkRequest cfg toolDefs messages ctx).messages ∧
    (mkStreamRequest cfg messages ctx).tools = none ∧
    streamChat streamBackend cfg messages ctx =
      (streamBackend (mkStreamRequest cfg messages ctx)).filterMap (fun e =>
        match e with
        | StreamEvent.content_block_delta (StreamDelta.text_delta s) => some s
        | _ => none) :=
  ⟨rfl, rfl, rfl, rfl, rfl, rfl⟩

/-- C5 (counterexample): `chat` does not reject the empty message list —
called with `[]` it submits one request (with an empty messages field) to
the backend and resolves with the backend's response rather than failing
beforehand. -/
theorem c5_chat_empty_counterexample :
    (chatT (fun _ => Except.ok respOk0 : CreateRequest → Except Unit MessagesResponse)
        cfg0 toolDefs0 [] none).1 = Except.ok agentRespOk0 ∧
    (chatT (fun _ => Except.ok respOk0 : CreateRequest → Except Unit MessagesResponse)
        cfg0 toolDefs0 [] none).2 =
      [Effect.backendCall (mkRequest cfg0 toolDefs0 [] none)] :=
  ⟨rfl, rfl⟩

/-- C5 (amended): `chat` performs no emptiness validation: for the empty
input list it still submits exactly one request, whose messages field is
empty, and succeeds whenever the backend does. -/
theorem c5_chat_empty_submits {ε : Type} (backend : CreateRequest → Except ε MessagesResponse)
    (cfg : AgentConfig) (toolDefs : List ToolDefinition) (ctx : Option ClientContext) :
    (chatT backend cfg toolDefs [] ctx).2 =
      [Effect.backendCall (mkRequest cfg toolDefs [] ctx)] ∧
    (mkRequest cfg toolDefs [] ctx).messages = [] ∧
    ∀ resp, backend (mkRequest cfg toolDefs [] ctx) = Except.ok resp →
      ∃ r, (chatT backend cfg toolDefs [] ctx).1 = Except.ok r :=
  ⟨chatT_trace backend cfg toolDefs [] ctx, rfl,
    fun resp h => ⟨_, chatT_ok backend cfg toolDefs [] ctx resp h⟩⟩

/-- C5 (witness): the amended theorem at a concrete always-succeeding
backend and the empty history. -/
theorem c5_chat_empty_submits_witness :
    (chatT (fun _ => Except.ok respOk0 : CreateRequest → Except Unit MessagesResponse)
        cfg0 toolDefs0 [] none).2 =
      [Effect.backendCall (mkRequest cfg0 toolDefs0 [] none)] ∧
    (mkRequest cfg0 toolDefs0 [] none).messages = [] ∧
    (∃ r, (chatT (fun _ => Except.ok respOk0 : CreateRequest → Except Unit MessagesResponse)
        cfg0 toolDefs0 [] none).1 = Except.ok r) :=
  ⟨(c5_chat_empty_submits
      (fun _ => Except.ok respOk0 : CreateRequest → Except Unit MessagesResponse)
      cfg0 toolDefs0 none).1,
   (c5_chat_empty_submits
      (fun _ => Except.ok respOk0 : CreateRequest → Except Unit MessagesResponse)
      cfg0 toolDefs0 none).2.1,
   (c5_chat_empty_submits
      (fun _ => Except.ok respOk0 : CreateRequest → Except Unit MessagesResponse)
      cfg0 toolDefs0 none).2.2 respOk0 rfl⟩

/-- C6: when the backend call fails, `chat` rethrows the very same error
value (not wrapped or replaced), having invoked the backend exactly once,
with the single request a pure function of the inputs (the trace shows the
one network call as the only effect before the failure). -/
theorem c6_backend_error_propagation {ε : Type}
    (backend : CreateRequest → Except ε MessagesResponse)
    (cfg : AgentConfig) (toolDefs : List ToolDefinition)
    (messages : List ChatMessage) (ctx : Option ClientContext) (e : ε)
    (h : backend (mkRequest cfg toolDefs messages ctx) = Except.error e) :
    chatT backend cfg toolDefs messages ctx =
      (Except.error e, [Effect.backendCall (mkRequest cfg toolDefs messages ctx)]) := by
  simp [chatT, h]

/-- C6 (witness): the theorem at a concrete failing backend. -/
theorem c6_backend_error_propagation_witness :
    chatT (fun _ => Except.error 7 : CreateRequest → Except Nat MessagesResponse)
        cfg0 toolDefs0 [] none =
      (Except.error 7, [Effect.backendCall (mkRequest cfg0 toolDefs0 [] none)]) :=
  c6_backend_error_propagation _ cfg0 toolDefs0 [] none 7 rfl

/-- C7 (counterexample): the claim that `chat` always returns a stop
reason drawn from `end_turn | tool_use | max_tokens` fails: the cast
`response.stop_reason as AgentResponse["stopReason"]` performs no runtime
check, so a backend response stopping with `refusal` is passed through
verbatim, outside the declared enum. -/
theorem c7_stopReason_counterexample :
    chat (fun _ => Except.ok respRefusal : CreateRequest → Except Unit MessagesResponse)
        cfg0 toolDefs0 [] none = Except.ok agentRespRefusal ∧
    "refusal".data ∉ ["end_turn".data, "tool_use".data, "max_tokens".data] :=
  ⟨rfl, by decide⟩

/-- C7 (amended): on backend success `chat` returns the requested tool
invocations exactly as the backend produced them — the returned list is
the ordered field-for-field projection of the response's `tool_use`
blocks, `none` exactly when there are none — does not execute any tool
(its effect trace is the single backend call), and passes the backend's
`stop_reason` through unvalidated (so it lies in the documented enum only
when the backend's value does). -/
theorem c7_toolCalls_exact {ε : Type} (backend : CreateRequest → Except ε MessagesResponse)
    (cfg : AgentConfig) (toolDefs : List ToolDefinition)
    (messages : List ChatMessage) (ctx : Option ClientContext) (resp : MessagesResponse)
    (h : backend (mkRequest cfg toolDefs messages ctx) = Except.ok resp) :
    ∃ r, (chatT backend cfg toolDefs messages ctx).1 = Except.ok r ∧
      r.toolCalls.getD [] = resp.content.filterMap toToolCall ∧
      (r.toolCalls = none ↔ resp.content.filterMap toToolCall = []) ∧
      r.stopReason = resp.stop_reason ∧
      (chatT backend cfg toolDefs messages ctx).2 =
        [Effect.backendCall (mkRequest cfg toolDefs messages ctx)] := by
  refine ⟨_, chatT_ok backend cfg toolDefs messages ctx resp h, ?_, ?_, rfl,
    chatT_trace backend cfg toolDefs messages ctx⟩
  · show (if (extractToolCalls resp).length > 0
        then some (extractToolCalls resp) else none).getD [] = resp.content.filterMap toToolCall
    rw [← extractToolCalls_eq resp]
    by_cases hl : (extractToolCalls resp).length > 0
    · rw [if_pos hl, Option.getD_some]
    · rw [if_neg hl, Option.getD_none]
      cases hx : extractToolCalls resp with
      | nil => rfl
      | cons a l => rw [hx] at hl; simp at hl
  · show (if (extractToolCalls resp).length > 0
        then some (extractToolCalls resp) else none) = none ↔
      resp.content.filterMap toToolCall = []
    rw [← extractToolCalls_eq resp]
    by_cases hl : (extractToolCalls resp).length > 0
    · rw [if_pos hl]
      constructor
      · intro hx
        exact Option.noConfusion hx
      · intro hx
        rw [hx] at hl
        simp at hl
    · rw [if_neg hl]
      constructor
      · intro _
        cases hx : extractToolCalls resp with
        | nil => rfl
        | cons a l => rw [hx] at hl; simp at hl
      · intro _
        rfl

/-- C7 (witness): the amended theorem at a backend response carrying one
text block and two tool-use blocks. -/
theorem c7_toolCalls_exact_witness :
    ∃ r, (chatT (fun _ => Except.ok respTools : CreateRequest → Except Unit MessagesResponse)
        cfg0 toolDefs0 [] none).1 = Except.ok r ∧
      r.toolCalls.getD [] = respTools.content.filterMap toToolCall ∧
      (r.toolCalls = none ↔ respTools.content.filterMap toToolCall = []) ∧
      r.stopReason = respTools.stop_reason ∧
      (chatT (fun _ => Except.ok respTools : CreateRequest → Except Unit MessagesResponse)
        cfg0 toolDefs0 [] none).2 =
        [Effect.backendCall (mkRequest cfg0 toolDefs0 [] none)] :=
  c7_toolCalls_exact _ cfg0 toolDefs0 [] none respTools rfl

/-- C8: `shouldEscalate` is a pure predicate that holds exactly when some
configured trigger occurs, case-insensitively, as a contiguous substring
of the message: it returns true if and only if the message splits as
`pre ++ core ++ post` with `core` equal to some trigger up to character
case. -/
theorem c8_shouldEscalate_iff (cfg : AgentConfig) (m : Str) :
    shouldEscalate cfg m = true ↔
      ∃ t ∈ cfg.escalationTriggers, ∃ pre core post : Str,
        m = pre ++ core ++ post ∧ toLowerStr core = toLowerStr t := by
  simp only [shouldEscalate, List.any_eq_true]
  constructor
  · rintro ⟨trig, htrig, hinc⟩
    obtain ⟨pre, post, heq⟩ := (listIncludes_iff _ _).mp hinc
    rw [toLowerStr] at heq
    obtain ⟨l₁, l₂, hm, h1, h2⟩ := List.map_eq_append_iff.mp heq
    obtain ⟨a, b, hl₁, ha, hb⟩ := List.map_eq_append_iff.mp h1
    refine ⟨trig, htrig, a, b, l₂, ?_, hb⟩
    rw [hm, hl₁]
  · rintro ⟨t, ht, pre, core, post, hm, hcore⟩
    refine ⟨t, ht, (listIncludes_iff _ _).mpr ⟨toLowerStr pre, toLowerStr post, ?_⟩⟩
    have hc' : core.map Char.toLower = t.map Char.toLower := hcore
    rw [hm]
    simp [toLowerStr, List.map_append, hc']

/-- C9: `chat` has no effect beyond the single network call — its effect
trace is exactly one backend request — and that request is built from the
inputs without touching them: its messages field is the per-element
conversion of the input list and its system field the rendered template
(the embedding's values are immutable, so the inputs themselves cannot
change; the trace makes the absence of any further effect checkable). -/
theorem c9_chat_frame {ε : Type} (backend : CreateRequest → Except ε MessagesResponse)
    (cfg : AgentConfig) (toolDefs : List ToolDefinition)
    (messages : List ChatMessage) (ctx : Option ClientContext) :
    (chatT backend cfg toolDefs messages ctx).2 =
      [Effect.backendCall (mkRequest cfg toolDefs messages ctx)] ∧
    (mkRequest cfg toolDefs messages ctx).messages = messages.map convMessage ∧
    (mkRequest cfg toolDefs messages ctx).system = buildSystemPrompt cfg ctx :=
  ⟨chatT_trace backend cfg toolDefs messages ctx, rfl, rfl⟩

/-- C10: on backend success the returned `content` is the text of the
first text-type block of the response (any later text blocks are dropped),
and the empty string when the response has no text block. -/
theorem c10_content_first_text {ε : Type} (backend : CreateRequest → Except ε MessagesResponse)
    (cfg : AgentConfig) (toolDefs : List ToolDefinition)
    (messages : List ChatMessage) (ctx : Option ClientContext) (resp : MessagesResponse)
    (h : backend (mkRequest cfg toolDefs messages ctx) = Except.ok resp) :
    (∀ pre s post, resp.content = pre ++ RespContentBlock.text s :: post →
      (∀ b ∈ pre, b.isText = false) →
      ∃ r, (chatT backend cfg toolDefs messages ctx).1 = Except.ok r ∧ r.content = s) ∧
    ((∀ b ∈ resp.content, b.isText = false) →
      ∃ r, (chatT backend cfg toolDefs messages ctx).1 = Except.ok r ∧ r.content = []) := by
  constructor
  · intro pre s post hc hpre
    exact ⟨_, chatT_ok backend cfg toolDefs messages ctx resp h, extractContent_first hc hpre⟩
  · intro hnone
    exact ⟨_, chatT_ok backend cfg toolDefs messages ctx resp h, extractContent_none hnone⟩

/-- C10 (witness): the theorem at a response with two text blocks — the
returned content is the first block's text, the second is dropped. -/
theorem c10_content_first_text_witness :
    ∃ r, (chatT (fun _ => Except.ok respTwoTexts : CreateRequest → Except Unit MessagesResponse)
        cfg0 toolDefs0 [] none).1 = Except.ok r ∧ r.content = "A".data :=
  (c10_content_first_text _ cfg0 toolDefs0 [] none respTwoTexts rfl).1
    [] "A".data [RespContentBlock.text "B".data] rfl (by simp)

end VAgents
